import Mathlib

/-!
Verification of the loaded-objects enumeration library (loaded-rs).

Shallow embedding of the library's core: byte-string name normalization and
matching (src/util.rs, src/map.rs), the Unix push-style traversal and its
four query operations (src/os/unix/mod.rs), the Windows pull-style lookup
operations (src/os/windows/mod.rs), and the segment permission flags.

Byte strings (Rust `&[u8]` / `&CStr` contents) are modelled as `List Nat`;
machine words as `Nat`.
-/

namespace Loaded

/-- Bytes of an ASCII string literal, for concrete test inputs. -/
def strBytes (s : String) : List Nat :=
  s.data.map (fun c => c.toNat)

/-! ## src/util.rs -/

/-- Embeds `slice_after_last` from src/util.rs: the Rust code finds the last
index holding `element` (iterating the enumerated slice in reverse) and
returns the subslice after it, or the whole slice when `element` is absent.
Structurally: if `element` occurs in the tail, the last occurrence is there;
otherwise the head decides. -/
def sliceAfterLast : List Nat → Nat → List Nat
  | [], _ => []
  | a :: rest, element =>
    if element ∈ rest then sliceAfterLast rest element
    else if a = element then rest
    else a :: rest

/-- Embeds `slice_before_first` from src/util.rs: the Rust code finds the
first index holding `element` (`Iterator::position`) and returns the
subslice before it, or the whole slice when `element` is absent. -/
def sliceBeforeFirst : List Nat → Nat → List Nat
  | [], _ => []
  | a :: rest, element =>
    if a = element then [] else a :: sliceBeforeFirst rest element

/-- The platform path separator `std::path::MAIN_SEPARATOR` as a byte on
Unix targets, where the Unix half of the library is compiled. -/
def MAIN_SEPARATOR : Nat := 47

/-- The byte of the ASCII dot. -/
def dotByte : Nat := 46

/-- Embeds `to_nice_name` from src/util.rs: take everything after the last
path separator, then everything before the first dot of that remainder. -/
def toNiceName (name : List Nat) : List Nat :=
  sliceBeforeFirst (sliceAfterLast name MAIN_SEPARATOR) dotByte

/-- Embeds `check_lib_name` from src/util.rs:
`lib == target || to_nice_name(lib) == target`. -/
def checkLibName (lib target : List Nat) : Bool :=
  lib = target || toNiceName lib = target

/-! ## src/map.rs -/

/-- Embeds the closure returned by `default_name_matcher` in src/map.rs:
given the raw `object_name` of a visited object, a candidate `name` matches
when it equals the object's nice name or its original raw name. -/
def defaultNameMatcher (objectName : List Nat) (name : List Nat) : Bool :=
  name = toNiceName objectName || name = objectName

/-! ### Basic lemmas about the slicing helpers -/

theorem sliceAfterLast_not_mem (l : List Nat) (e : Nat) :
    e ∉ sliceAfterLast l e := by
  induction l with
  | nil => simp [sliceAfterLast]
  | cons a rest ih =>
    by_cases hmem : e ∈ rest
    · simpa [sliceAfterLast, hmem] using ih
    · by_cases hae : a = e
      · simpa [sliceAfterLast, hmem, hae] using hmem
      · intro hx
        rw [sliceAfterLast, if_neg hmem, if_neg hae] at hx
        rcases List.mem_cons.mp hx with h | h
        · exact hae h.symm
        · exact hmem h

theorem sliceBeforeFirst_not_mem (l : List Nat) (e : Nat) :
    e ∉ sliceBeforeFirst l e := by
  induction l with
  | nil => simp [sliceBeforeFirst]
  | cons a rest ih =>
    by_cases hae : a = e
    · simp [sliceBeforeFirst, hae]
    · intro hx
      rw [sliceBeforeFirst, if_neg hae] at hx
      rcases List.mem_cons.mp hx with h | h
      · exact hae h.symm
      · exact ih h

theorem sliceAfterLast_of_not_mem {l : List Nat} {e : Nat} (h : e ∉ l) :
    sliceAfterLast l e = l := by
  cases l with
  | nil => rfl
  | cons a rest =>
    have hrest : e ∉ rest := fun hx => h (List.mem_cons_of_mem _ hx)
    have hae : a ≠ e := fun hx => h (hx ▸ List.mem_cons_self a rest)
    rw [sliceAfterLast, if_neg hrest, if_neg hae]

theorem sliceBeforeFirst_of_not_mem {l : List Nat} {e : Nat} (h : e ∉ l) :
    sliceBeforeFirst l e = l := by
  induction l with
  | nil => rfl
  | cons a rest ih =>
    have hrest : e ∉ rest := fun hx => h (List.mem_cons_of_mem _ hx)
    have hae : a ≠ e := fun hx => h (hx ▸ List.mem_cons_self a rest)
    rw [sliceBeforeFirst, if_neg hae, ih hrest]

theorem mem_of_mem_sliceBeforeFirst {l : List Nat} {e b : Nat}
    (h : b ∈ sliceBeforeFirst l e) : b ∈ l := by
  induction l with
  | nil => simpa [sliceBeforeFirst] using h
  | cons a rest ih =>
    by_cases hae : a = e
    · rw [sliceBeforeFirst, if_pos hae] at h
      exact absurd h (List.not_mem_nil b)
    · rw [sliceBeforeFirst, if_neg hae] at h
      rcases List.mem_cons.mp h with h | h
      · exact h ▸ List.mem_cons_self a rest
      · exact List.mem_cons_of_mem _ (ih h)

theorem mem_of_mem_sliceAfterLast {l : List Nat} {e b : Nat}
    (h : b ∈ sliceAfterLast l e) : b ∈ l := by
  induction l with
  | nil => simpa [sliceAfterLast] using h
  | cons a rest ih =>
    by_cases hmem : e ∈ rest
    · rw [sliceAfterLast, if_pos hmem] at h
      exact List.mem_cons_of_mem _ (ih h)
    · by_cases hae : a = e
      · rw [sliceAfterLast, if_neg hmem, if_pos hae] at h
        exact List.mem_cons_of_mem _ h
      · rwa [sliceAfterLast, if_neg hmem, if_neg hae] at h

theorem toNiceName_no_sep (name : List Nat) :
    MAIN_SEPARATOR ∉ toNiceName name := by
  intro hx
  exact sliceAfterLast_not_mem name MAIN_SEPARATOR (mem_of_mem_sliceBeforeFirst hx)

theorem toNiceName_no_dot (name : List Nat) :
    dotByte ∉ toNiceName name := by
  exact sliceBeforeFirst_not_mem _ dotByte

theorem toNiceName_idem (name : List Nat) :
    toNiceName (toNiceName name) = toNiceName name := by
  rw [toNiceName, sliceAfterLast_of_not_mem (toNiceName_no_sep name),
    sliceBeforeFirst_of_not_mem (toNiceName_no_dot name)]

/-! ### Characterization of normalization by the spec's description

The spec describes normalization as: everything after the last
path-separator occurrence (the whole name if there is none), truncated just
before the first dot of that remainder (the whole remainder if there is
none).  Phrased with standard list operations: the maximal separator-free
suffix, then the maximal dot-free prefix of it. -/

/-- Modelled from the spec's words in section 4.3: the portion of `name`
after the last separator is its maximal separator-free suffix, and the
truncation just before the first dot is the maximal dot-free prefix. -/
def niceNameSpec (name : List Nat) : List Nat :=
  ((name.reverse.takeWhile (fun b => b ≠ MAIN_SEPARATOR)).reverse).takeWhile
    (fun b => b ≠ dotByte)

theorem takeWhile_append_of_all {p : Nat → Bool} {l : List Nat}
    (l' : List Nat) (h : ∀ b ∈ l, p b = true) :
    (l ++ l').takeWhile p = l ++ l'.takeWhile p := by
  induction l with
  | nil => rfl
  | cons a rest ih =>
    have ha : p a = true := h a (List.mem_cons_self a rest)
    have hrest : ∀ b ∈ rest, p b = true := fun b hb => h b (List.mem_cons_of_mem _ hb)
    simp [List.takeWhile, ha, ih hrest]

theorem takeWhile_append_of_stop {p : Nat → Bool} {l : List Nat}
    (l' : List Nat) (h : ∃ b ∈ l, p b = false) :
    (l ++ l').takeWhile p = l.takeWhile p := by
  induction l with
  | nil =>
    rcases h with ⟨b, hb, _⟩
    exact absurd hb (List.not_mem_nil b)
  | cons a rest ih =>
    by_cases ha : p a = true
    · rcases h with ⟨b, hb, hpb⟩
      rcases List.mem_cons.mp hb with rfl | hbr
      · rw [ha] at hpb; cases hpb
      · simp [List.takeWhile, ha, ih ⟨b, hbr, hpb⟩]
    · have ha' : p a = false := by
        cases hpa : p a
        · rfl
        · exact absurd hpa ha
      simp [List.takeWhile, ha']

theorem sliceBeforeFirst_eq_takeWhile (l : List Nat) (e : Nat) :
    sliceBeforeFirst l e = l.takeWhile (fun b => b ≠ e) := by
  induction l with
  | nil => rfl
  | cons a rest ih =>
    by_cases hae : a = e
    · simp [sliceBeforeFirst, hae, List.takeWhile]
    · simp [sliceBeforeFirst, hae, List.takeWhile, ih]

theorem sliceAfterLast_eq_takeWhile (l : List Nat) (e : Nat) :
    sliceAfterLast l e = (l.reverse.takeWhile (fun b => b ≠ e)).reverse := by
  induction l with
  | nil => rfl
  | cons a rest ih =>
    by_cases hmem : e ∈ rest
    · rw [sliceAfterLast, if_pos hmem, ih]
      have hstop : ∃ b ∈ rest.reverse, (fun b => decide (b ≠ e)) b = false :=
        ⟨e, List.mem_reverse.mpr hmem, by simp⟩
      rw [List.reverse_cons, takeWhile_append_of_stop [a] hstop]
    · by_cases hae : a = e
      · rw [sliceAfterLast, if_neg hmem, if_pos hae]
        have hall : ∀ b ∈ rest.reverse, (fun b => decide (b ≠ e)) b = true := by
          intro b hb
          have hbr : b ∈ rest := List.mem_reverse.mp hb
          simp only [decide_eq_true_eq]
          intro hbe
          exact hmem (hbe ▸ hbr)
        rw [List.reverse_cons, takeWhile_append_of_all [a] hall]
        simp [List.takeWhile, hae]
      · rw [sliceAfterLast, if_neg hmem, if_neg hae]
        have hall : ∀ b ∈ rest.reverse, (fun b => decide (b ≠ e)) b = true := by
          intro b hb
          have hbr : b ∈ rest := List.mem_reverse.mp hb
          simp only [decide_eq_true_eq]
          intro hbe
          exact hmem (hbe ▸ hbr)
        rw [List.reverse_cons, takeWhile_append_of_all [a] hall]
        simp [List.takeWhile, hae]

theorem toNiceName_eq_spec (name : List Nat) :
    toNiceName name = niceNameSpec name := by
  rw [toNiceName, niceNameSpec, sliceBeforeFirst_eq_takeWhile,
    sliceAfterLast_eq_takeWhile]

/-! ## src/os/unix/mod.rs: objects and the push-style traversal

A `dl_phdr_info` record is modelled by its fields the library reads: the
base address `dlpi_addr` and the raw name behind `dlpi_name`.  The
`dl_iterate_phdr` primitive is modelled as iteration over the list of
currently loaded objects in enumeration order; the callback returns a
break signal (`ControlFlow` in the Rust code).  `traverseVisits` threads
the callback state explicitly and additionally counts how many objects the
callback was invoked on, which instruments claims about early
termination. -/

structure UnixObject where
  dlpi_addr : Nat
  dlpi_name : List Nat
  deriving DecidableEq, Repr

/-- Embeds `Objects::for_each_object` / `dl_iterate_phdr`: invoke the
callback on each loaded object in order, stopping when it signals a break.
Returns the final callback state and the number of callback invocations. -/
def traverseVisits {S : Type u} : List UnixObject → (S → UnixObject → S × Bool) → S → S × Nat
  | [], _, s => (s, 0)
  | o :: rest, f, s =>
    let step := f s o
    if step.2 then (step.1, 1)
    else
      let next := traverseVisits rest f step.1
      (next.1, next.2 + 1)

/-- State of one `Objects::map_by_name` call on Unix: the result slot the
callback writes through `result_mut`, and the number of times the closure
was taken out of the `ManuallyDrop` and invoked. -/
structure MapByNameState (R : Type u) where
  result : Option R
  takes : Nat

/-- Embeds `Objects::map_by_name` from src/os/unix/mod.rs, instrumented:
traverse all objects; on the first one whose raw name passes
`check_lib_name` against the query, take the closure, apply it, store the
result and break. -/
def mapByNameRun {R : Type u} (objs : List UnixObject) (name : List Nat)
    (f : UnixObject → R) : MapByNameState R × Nat :=
  traverseVisits objs
    (fun s o =>
      if checkLibName o.dlpi_name name then
        ({ result := some (f o), takes := s.takes + 1 }, true)
      else (s, false))
    { result := none, takes := 0 }

/-- The observable result of `Objects::map_by_name` on Unix. -/
def mapByName {R : Type u} (objs : List UnixObject) (name : List Nat)
    (f : UnixObject → R) : Option R :=
  (mapByNameRun objs name f).1.result

/-- On Unix the error type of the enumerator is `Infallible`; the
`ObjectsImpl` wrapper returns every `map_by_name` result through the
success channel. -/
def mapByNameOuter {R : Type u} (objs : List UnixObject) (name : List Nat)
    (f : UnixObject → R) : Except Empty (Option R) :=
  Except.ok (mapByName objs name f)

/-- Index of the first object whose raw name passes `check_lib_name`
against the query, if any. -/
def firstMatchIdx (name : List Nat) : List UnixObject → Option Nat
  | [] => none
  | o :: rest =>
    if checkLibName o.dlpi_name name then some 0
    else (firstMatchIdx name rest).map (· + 1)

theorem mapByNameRun_characterization {R : Type u} (objs : List UnixObject)
    (name : List Nat) (f : UnixObject → R) :
    match firstMatchIdx name objs with
    | some i =>
        (mapByNameRun objs name f).1.takes = 1 ∧
        (mapByNameRun objs name f).2 = i + 1 ∧
        (mapByNameRun objs name f).1.result = (objs.get? i).map f
    | none =>
        (mapByNameRun objs name f).1.takes = 0 ∧
        (mapByNameRun objs name f).2 = objs.length ∧
        (mapByNameRun objs name f).1.result = none := by
  induction objs with
  | nil => simp [firstMatchIdx, mapByNameRun, traverseVisits]
  | cons o rest ih =>
    by_cases hm : checkLibName o.dlpi_name name
    · simp [firstMatchIdx, hm, mapByNameRun, traverseVisits]
    · have hrun :
          mapByNameRun (o :: rest) name f =
            ((mapByNameRun rest name f).1, (mapByNameRun rest name f).2 + 1) := by
        simp [mapByNameRun, traverseVisits, hm]
      cases hidx : firstMatchIdx name rest with
      | none =>
        have ih' := ih
        rw [hidx] at ih'
        simp only [firstMatchIdx, hm, if_neg, hidx, Option.map_none]
        rw [hrun]
        exact ⟨ih'.1, by rw [ih'.2.1]; simp, ih'.2.2⟩
      | some i =>
        have ih' := ih
        rw [hidx] at ih'
        simp only [firstMatchIdx, hm, if_neg, hidx, Option.map_some]
        rw [hrun]
        refine ⟨ih'.1, by rw [ih'.2.1], ?_⟩
        rw [ih'.2.2]
        simp [List.get?]

/-! ## src/map.rs: the ObjectMap protocol

`fill_map` on both platforms is generic over the caller's map of slots
through the `ObjectMapEntry` / `ObjectMapEntryMut` traits.  The trait
surface an entry exposes — `names`, `is_written`, `name_matches`, `write`
— is modelled as a bundle of functions over the entry type, parametrized
by the platform object type handed to `write`.  A map is a list of
entries, mirroring the `impl ObjectMap for [T]` instance (the single-entry
`impl ObjectMap for T` is the one-element list). -/

structure EntryOps (Obj : Type u) (E : Type v) where
  names : E → List (List Nat)
  is_written : E → Bool
  name_matches : E → List Nat → Bool
  write : E → Obj → E

/-- Embeds `ObjectMap::is_full`: every entry reports written. -/
def isFull {Obj : Type u} {E : Type v} (ops : EntryOps Obj E) (entries : List E) : Bool :=
  entries.all ops.is_written

/-- Embeds the `(K, Option<V>)` entry of src/map.rs with the object itself
as the stored value: a single candidate name, written iff the value is
present. -/
structure PairEntry (Obj : Type u) where
  key : List Nat
  value : Option Obj
  deriving DecidableEq, Repr

/-- The trait implementation for `(K, Option<V>)`: one candidate name, and
`name_matches` overridden to exact byte equality `self.0 == *name`. -/
def pairOps (Obj : Type u) : EntryOps Obj (PairEntry Obj) where
  names e := [e.key]
  is_written e := e.value.isSome
  name_matches e name := e.key = name
  write e o := { e with value := some o }

/-- An entry type relying on the trait-default `name_matches` of
src/map.rs lines 75-77 (`self.names().any(default_name_matcher(name))`),
and whose `write` records every write it receives, so that the number of
writes a slot undergoes is observable. -/
structure LogEntry (Obj : Type u) where
  nameList : List (List Nat)
  written : List Obj
  deriving DecidableEq, Repr

/-- The trait implementation for `LogEntry`: default `name_matches`
semantics, written iff at least one write happened. -/
def logOps (Obj : Type u) : EntryOps Obj (LogEntry Obj) where
  names e := e.nameList
  is_written e := !e.written.isEmpty
  name_matches e name := e.nameList.any (defaultNameMatcher name)
  write e o := { e with written := e.written ++ [o] }

/-- Embeds `Objects::fill_map` from src/os/unix/mod.rs: one full traversal;
at each visited object, break if the map is full, otherwise write every
entry whose `name_matches` accepts the object's raw name.  Returns the
final entries and the number of traversal visits. -/
def unixFillMap {E : Type v} (ops : EntryOps UnixObject E)
    (objs : List UnixObject) (entries : List E) : List E × Nat :=
  traverseVisits objs
    (fun es o =>
      if isFull ops es then (es, true)
      else
        (es.map (fun e =>
          if ops.name_matches e o.dlpi_name then ops.write e o else e), false))
    entries

/-! ## src/os/windows/mod.rs: modules and the pull-style lookup -/

/-- A Windows module as src/os/windows/mod.rs reads it: the `HMODULE`
handle (also the base address) and the image size. -/
structure Module where
  handle : Nat
  size : Nat
  deriving DecidableEq, Repr

/-- An `std::io::Error` value, identified by its OS error code. -/
structure WinError where
  code : Nat
  deriving DecidableEq, Repr

/-- The Windows platform collaborator: `Module::find`
(`GetModuleHandleA` + `GetModuleInformation`) as a lookup oracle from a
name to a module, an absence, or an OS failure; and the `__ImageBase`
address of the running executable. -/
structure WinPlatform where
  find : List Nat → Except WinError (Option Module)
  imageBase : Nat

/-- Embeds `Objects::map_by_name` from src/os/windows/mod.rs: one direct
named lookup; found wraps `f`'s result, absent stays absent, failure
propagates. -/
def winMapByName {R : Type u} (p : WinPlatform) (name : List Nat)
    (f : Module → R) : Except WinError (Option R) :=
  match p.find name with
  | Except.ok (some m) => Except.ok (some (f m))
  | Except.ok none => Except.ok none
  | Except.error e => Except.error e

/-- Embeds `Object::is_main_program` from src/os/windows/mod.rs: the
module handle equals the address of `__ImageBase`. -/
def winIsMainProgram (p : WinPlatform) (m : Module) : Bool :=
  m.handle = p.imageBase

/-- Embeds `UnixObject::is_main_program` from src/os/unix/mod.rs: the raw
name is empty. -/
def unixIsMainProgram (o : UnixObject) : Bool :=
  o.dlpi_name.isEmpty

/-- The inner candidate loop of the Windows `Objects::fill_map`: try each
candidate name with `find_object`, propagating a failure immediately and
stopping at the first present module.  Also counts the lookups issued. -/
def winTryNames (p : WinPlatform) : List (List Nat) → Except WinError (Option Module) × Nat
  | [] => (Except.ok none, 0)
  | n :: rest =>
    match p.find n with
    | Except.error e => (Except.error e, 1)
    | Except.ok (some m) => (Except.ok (some m), 1)
    | Except.ok none =>
      let next := winTryNames p rest
      (next.1, next.2 + 1)

/-- Embeds `Objects::fill_map` from src/os/windows/mod.rs: for each entry
in order, try its candidate names via direct lookup; write the entry on
the first found module; a lookup failure aborts the remaining entries.
Returns the final entries, the propagated failure if any, and the number
of lookups issued. -/
def winFillMap {E : Type v} (ops : EntryOps Module E) (p : WinPlatform) :
    List E → List E × Option WinError × Nat
  | [] => ([], none, 0)
  | e :: rest =>
    match winTryNames p (ops.names e) with
    | (Except.error err, k) => (e :: rest, some err, k)
    | (Except.ok (some m), k) =>
      let next := winFillMap ops p rest
      (ops.write e m :: next.1, next.2.1, k + next.2.2)
    | (Except.ok none, k) =>
      let next := winFillMap ops p rest
      (e :: next.1, next.2.1, k + next.2.2)

/-! ## Segment permission flags (src/os/unix/mod.rs) -/

/-- The ELF segment flag word `SegmentFlags(pub ElfWord)`. -/
structure SegmentFlags where
  bits : Nat
  deriving DecidableEq, Repr

namespace SegmentFlags

/-- `PF_X`. -/
def EXECUTABLE : SegmentFlags := ⟨1⟩
/-- `PF_W`. -/
def WRITABLE : SegmentFlags := ⟨2⟩
/-- `PF_R`. -/
def READABLE : SegmentFlags := ⟨4⟩

/-- Embeds `SegmentFlags::union`: bitwise or. -/
def union (a b : SegmentFlags) : SegmentFlags := ⟨a.bits ||| b.bits⟩

/-- Embeds `SegmentFlags::is`: exact equality of the flag words. -/
def is (a b : SegmentFlags) : Bool := a.bits = b.bits

/-- Embeds `SegmentFlags::contains`: the intersection is nonzero. -/
def contains (a b : SegmentFlags) : Bool := a.bits &&& b.bits ≠ 0

/-- Embeds `SegmentFlagsImpl::has_x`. -/
def has_x (a : SegmentFlags) : Bool := a.contains EXECUTABLE
/-- Embeds `SegmentFlagsImpl::has_r`. -/
def has_r (a : SegmentFlags) : Bool := a.contains READABLE
/-- Embeds `SegmentFlagsImpl::has_w`. -/
def has_w (a : SegmentFlags) : Bool := a.contains WRITABLE

/-- Embeds `SegmentFlagsImpl::is_rx` on Unix:
`self.is(&Self::READABLE.union(Self::EXECUTABLE))`. -/
def is_rx (a : SegmentFlags) : Bool := a.is (READABLE.union EXECUTABLE)

end SegmentFlags

/-! ### Helper lemmas about the traversal and fill_map -/

theorem firstMatchIdx_eq_none {q : List Nat} {objs : List UnixObject}
    (h : ∀ o ∈ objs, checkLibName o.dlpi_name q = false) :
    firstMatchIdx q objs = none := by
  induction objs with
  | nil => rfl
  | cons o rest ih =>
    have ho : checkLibName o.dlpi_name q = false := h o (List.mem_cons_self o rest)
    have hrest : ∀ x ∈ rest, checkLibName x.dlpi_name q = false :=
      fun x hx => h x (List.mem_cons_of_mem _ hx)
    simp [firstMatchIdx, ho, ih hrest]

theorem unixFillMap_nil {E : Type v} (ops : EntryOps UnixObject E) (entries : List E) :
    unixFillMap ops [] entries = (entries, 0) := rfl

theorem unixFillMap_cons {E : Type v} (ops : EntryOps UnixObject E)
    (o : UnixObject) (rest : List UnixObject) (entries : List E) :
    unixFillMap ops (o :: rest) entries =
      if isFull ops entries then (entries, 1)
      else
        ((unixFillMap ops rest (entries.map (fun e =>
            if ops.name_matches e o.dlpi_name then ops.write e o else e))).1,
         (unixFillMap ops rest (entries.map (fun e =>
            if ops.name_matches e o.dlpi_name then ops.write e o else e))).2 + 1) := by
  by_cases hfull : isFull ops entries
  · simp [unixFillMap, traverseVisits, hfull]
  · simp [unixFillMap, traverseVisits, hfull]

theorem forall2_of_pointwise {E : Type v} {R : E → E → Prop} {l : List E}
    {f : E → E} (h : ∀ e ∈ l, R e (f e)) : List.Forall₂ R l (l.map f) := by
  induction l with
  | nil => exact List.Forall₂.nil
  | cons a rest ih =>
    exact List.Forall₂.cons (h a (List.mem_cons_self a rest))
      (ih fun e he => h e (List.mem_cons_of_mem _ he))

theorem forall2_trans {E : Type v} {R : E → E → Prop}
    (htrans : ∀ {a b c : E}, R a b → R b c → R a c) :
    ∀ {l₁ l₂ l₃ : List E}, List.Forall₂ R l₁ l₂ → List.Forall₂ R l₂ l₃ →
      List.Forall₂ R l₁ l₃ := by
  intro l₁ l₂ l₃ h₁₂ h₂₃
  induction h₁₂ generalizing l₃ with
  | nil => cases h₂₃; exact List.Forall₂.nil
  | cons hab _ ih =>
    cases h₂₃ with
    | cons hbc htail => exact List.Forall₂.cons (htrans hab hbc) (ih htail)

theorem forall2_mem_right {E : Type v} {R : E → E → Prop} {l₁ l₂ : List E}
    (h : List.Forall₂ R l₁ l₂) : ∀ b ∈ l₂, ∃ a ∈ l₁, R a b := by
  induction h with
  | nil => intro b hb; exact absurd hb (List.not_mem_nil b)
  | cons hab _ ih =>
    intro b hb
    rcases List.mem_cons.mp hb with rfl | hb'
    · exact ⟨_, List.mem_cons_self _ _, hab⟩
    · rcases ih b hb' with ⟨a, ha, hr⟩
      exact ⟨a, List.mem_cons_of_mem _ ha, hr⟩

/-- Every entry of the final map of a Unix `fill_map` pass is related to
its initial entry by any relation that is reflexive, transitive, and
respected by a matching write. -/
theorem unixFillMap_forall2 {E : Type v} (ops : EntryOps UnixObject E)
    (R : E → E → Prop) (hrefl : ∀ e, R e e)
    (htrans : ∀ {a b c : E}, R a b → R b c → R a c) :
    ∀ (objs : List UnixObject) (entries : List E),
      (∀ e o, o ∈ objs → ops.name_matches e o.dlpi_name = true → R e (ops.write e o)) →
      List.Forall₂ R entries (unixFillMap ops objs entries).1 := by
  intro objs
  induction objs with
  | nil =>
    intro entries _
    exact List.forall₂_same.mpr fun e _ => hrefl e
  | cons o rest ih =>
    intro entries hw
    rw [unixFillMap_cons]
    by_cases hfull : isFull ops entries
    · simp only [hfull, if_pos]
      exact List.forall₂_same.mpr fun e _ => hrefl e
    · simp only [hfull, if_neg, Bool.false_eq_true, not_false_eq_true]
      have hstep : List.Forall₂ R entries (entries.map (fun e =>
          if ops.name_matches e o.dlpi_name then ops.write e o else e)) := by
        refine forall2_of_pointwise fun e _ => ?_
        by_cases hm : ops.name_matches e o.dlpi_name
        · simpa [hm] using hw e o (List.mem_cons_self o rest) hm
        · simpa [hm] using hrefl e
      have hrest := ih (entries.map (fun e =>
          if ops.name_matches e o.dlpi_name then ops.write e o else e))
        (fun e x hx hm => hw e x (List.mem_cons_of_mem _ hx) hm)
      exact forall2_trans (R := R) htrans hstep hrest

/-! ## Claim theorems -/

/-- C1, counterexample: with candidate raw name "libfoo" and query
"/a/b/libfoo.so", the candidate equals the normalized query, so the claim
declares a match; but `check_lib_name` — which normalizes the candidate,
not the query — declares none, and `map_by_name` finds nothing. -/
theorem c1_counterexample :
    strBytes "libfoo" = toNiceName (strBytes "/a/b/libfoo.so") ∧
    checkLibName (strBytes "libfoo") (strBytes "/a/b/libfoo.so") = false ∧
    mapByName [⟨4096, strBytes "libfoo"⟩] (strBytes "/a/b/libfoo.so")
      (fun o => o.dlpi_addr) = none :=
  ⟨by decide, by decide, by decide⟩

/-- C1 (amended): the name matching that governs `map_by_name` declares a
match exactly when the candidate's raw name equals the query or the
candidate's normalized raw name equals the query (the candidate is the
name normalized, not the query); in particular a query of "libfoo" matches
an object whose raw name is "/a/b/libfoo.so". -/
theorem c1_name_matching_amended :
    (∀ c q : List Nat, checkLibName c q = true ↔ (c = q ∨ toNiceName c = q)) ∧
    mapByName [⟨4096, strBytes "/a/b/libfoo.so"⟩] (strBytes "libfoo")
      (fun o => o.dlpi_addr) = some 4096 :=
  ⟨fun c q => by simp [checkLibName], by decide⟩

/-- C2, failing input: the Unix `fill_map` writes a slot a second time
when a later visited object also matches it and the map is not yet full.
With objects "a" then "b" and a slot whose candidates are \x7b"a", "b"\x7d
next to a never-matching slot, the first slot's write log receives both
objects in one pass, although it reported written after the first. -/
theorem c2_fill_map_double_write :
    (unixFillMap (logOps UnixObject) [⟨1, strBytes "a"⟩, ⟨2, strBytes "b"⟩]
      [⟨[strBytes "a", strBytes "b"], []⟩, ⟨[strBytes "zzz"], []⟩]).1 =
      [⟨[strBytes "a", strBytes "b"], [⟨1, strBytes "a"⟩, ⟨2, strBytes "b"⟩]⟩,
       ⟨[strBytes "zzz"], []⟩] := by decide

/-- C3, counterexample: batch matching is not exact-byte-equality only.
A slot relying on the trait-default `name_matches` whose sole candidate is
"libfoo" is written by a visited object with raw name "/a/b/libfoo.so",
which is not byte-equal to the candidate — the normalized comparison of
`default_name_matcher` applied. -/
theorem c3_counterexample :
    (unixFillMap (logOps UnixObject) [⟨7, strBytes "/a/b/libfoo.so"⟩]
      [⟨[strBytes "libfoo"], []⟩]).1 =
      [⟨[strBytes "libfoo"], [⟨7, strBytes "/a/b/libfoo.so"⟩]⟩] ∧
    strBytes "libfoo" ≠ strBytes "/a/b/libfoo.so" :=
  ⟨by decide, by decide⟩

/-- C3 (amended): batch matching tests names through the slot's own
`name_matches`.  For the provided `(K, Option<V>)` pair slots this is
exact byte equality: such a slot's value can only change to an object
whose raw name equals the slot's single candidate.  For slots using the
trait-default `name_matches`, a write also happens when a candidate equals
the normalized raw name of the visited object. -/
theorem c3_batch_matching_amended :
    (∀ (objs : List UnixObject) (entries : List (PairEntry UnixObject)),
      ∀ x ∈ (unixFillMap (pairOps UnixObject) objs entries).1,
        ∃ e ∈ entries, x.key = e.key ∧
          (x.value = e.value ∨ ∃ o ∈ objs, x.value = some o ∧ o.dlpi_name = x.key)) ∧
    (∀ (objs : List UnixObject) (entries : List (LogEntry UnixObject)),
      ∀ x ∈ (unixFillMap (logOps UnixObject) objs entries).1,
        ∃ e ∈ entries, x.nameList = e.nameList ∧
          ∀ o ∈ x.written, o ∈ e.written ∨ (o ∈ objs ∧
            ∃ c ∈ x.nameList, c = toNiceName o.dlpi_name ∨ c = o.dlpi_name)) := by
  constructor
  · intro objs entries
    have h := unixFillMap_forall2 (pairOps UnixObject)
      (fun e x => x.key = e.key ∧
        (x.value = e.value ∨ ∃ o ∈ objs, x.value = some o ∧ o.dlpi_name = x.key))
      (fun e => ⟨rfl, Or.inl rfl⟩)
      (fun hab hbc => by
        refine ⟨hbc.1.trans hab.1, ?_⟩
        rcases hbc.2 with hv | ⟨o, ho, hv, hn⟩
        · rcases hab.2 with hv' | ⟨o, ho, hv', hn⟩
          · exact Or.inl (hv.trans hv')
          · exact Or.inr ⟨o, ho, hv.trans hv', hn.trans hbc.1.symm⟩
        · exact Or.inr ⟨o, ho, hv, hn⟩)
      objs entries
      (fun e o ho hm => by
        have hkey : e.key = o.dlpi_name := by
          simpa [pairOps] using hm
        exact ⟨rfl, Or.inr ⟨o, ho, rfl, hkey.symm⟩⟩)
    exact forall2_mem_right h
  · intro objs entries
    have h := unixFillMap_forall2 (logOps UnixObject)
      (fun e x => x.nameList = e.nameList ∧
        ∀ o ∈ x.written, o ∈ e.written ∨ (o ∈ objs ∧
          ∃ c ∈ x.nameList, c = toNiceName o.dlpi_name ∨ c = o.dlpi_name))
      (fun e => ⟨rfl, fun o ho => Or.inl ho⟩)
      (fun hab hbc => by
        refine ⟨hbc.1.trans hab.1, ?_⟩
        intro o ho
        rcases hbc.2 o ho with hmem | ⟨hobj, c, hc, hcm⟩
        · rcases hab.2 o hmem with hmem' | ⟨hobj, c, hc, hcm⟩
          · exact Or.inl hmem'
          · exact Or.inr ⟨hobj, c, hbc.1 ▸ hc, hcm⟩
        · exact Or.inr ⟨hobj, c, hc, hcm⟩)
      objs entries
      (fun e o ho hm => by
        refine ⟨rfl, ?_⟩
        intro x hx
        have hx2 : x ∈ e.written ∨ x = o := by simpa [logOps] using hx
        rcases hx2 with hx' | hxo
        · exact Or.inl hx'
        · subst hxo
          have hm' : ∃ c ∈ e.nameList, defaultNameMatcher x.dlpi_name c = true := by
            simpa [logOps, List.any_eq_true] using hm
          rcases hm' with ⟨c, hc, hcm⟩
          have hcm' : c = toNiceName x.dlpi_name ∨ c = x.dlpi_name := by
            simpa [defaultNameMatcher] using hcm
          exact Or.inr ⟨ho, c, by simpa [logOps] using hc, hcm'⟩)
    exact forall2_mem_right h

/-- C3 witness: the pair-slot half of the amended claim at a concrete
input — one loaded object named "a" and one pair slot with key "a". -/
theorem c3_batch_matching_amended_witness :
    ∃ e ∈ [PairEntry.mk (strBytes "a") (none : Option UnixObject)],
      (PairEntry.mk (strBytes "a") (some (UnixObject.mk 5 (strBytes "a")))).key = e.key ∧
      ((PairEntry.mk (strBytes "a") (some (UnixObject.mk 5 (strBytes "a")))).value = e.value ∨
        ∃ o ∈ [UnixObject.mk 5 (strBytes "a")],
          (PairEntry.mk (strBytes "a") (some (UnixObject.mk 5 (strBytes "a")))).value = some o ∧
          o.dlpi_name = (PairEntry.mk (strBytes "a") (some (UnixObject.mk 5 (strBytes "a")))).key) :=
  c3_batch_matching_amended.1 ([⟨5, strBytes "a"⟩] : List UnixObject)
    ([⟨strBytes "a", none⟩] : List (PairEntry UnixObject))
    (⟨strBytes "a", some ⟨5, strBytes "a"⟩⟩ : PairEntry UnixObject) (by decide)

/-- C4, counterexample: a `fill_map` call on an already-full map still
performs platform work on both platforms.  On Unix the traversal is
started and visits one object before observing fullness; on Windows one
direct named lookup is issued for the already-written slot. -/
theorem c4_counterexample :
    (unixFillMap (pairOps UnixObject) [⟨1, strBytes "a"⟩]
      [⟨strBytes "x", some (UnixObject.mk 9 (strBytes "x"))⟩]).2 = 1 ∧
    (winFillMap (pairOps Module) ⟨fun _ => Except.ok none, 0⟩
      [⟨strBytes "x", some (Module.mk 3 4)⟩]).2.2 = 1 :=
  ⟨by decide, rfl⟩

/-- C4 (amended): once every slot is written, no further slot is tested or
written.  On Unix the traversal aborts at the first visit that observes
fullness: with a full map the entries are returned unchanged and the
number of traversal visits is min 1 (number of loaded objects) — at most
one, not zero.  On Windows `fill_map` does not consult `is_written`: the
number of direct lookups it issues is the same whether the slots are
already written or not. -/
theorem c4_full_map_amended :
    (∀ {E : Type} (ops : EntryOps UnixObject E) (objs : List UnixObject)
        (entries : List E), isFull ops entries = true →
        unixFillMap ops objs entries = (entries, min 1 objs.length)) ∧
    (∀ (p : WinPlatform) (entries : List (PairEntry Module)),
        (winFillMap (pairOps Module) p entries).2.2 =
        (winFillMap (pairOps Module) p
          (entries.map (fun e => { e with value := none }))).2.2) := by
  constructor
  · intro E ops objs entries hfull
    cases objs with
    | nil => simp [unixFillMap, traverseVisits]
    | cons o rest => simp [unixFillMap, traverseVisits, hfull]
  · intro p entries
    induction entries with
    | nil => rfl
    | cons e rest ih =>
      have hnames : (pairOps Module).names { e with value := none } =
          (pairOps Module).names e := rfl
      simp only [List.map_cons, winFillMap, hnames]
      cases htry : winTryNames p ((pairOps Module).names e) with
      | mk r k =>
        cases r with
        | error err => rfl
        | ok mo =>
          cases mo with
          | none => simp [ih]
          | some m => simp [ih]

/-- C4 witness: the amended Unix statement at a concrete input — an
already-full one-slot map and one loaded object: the map is unchanged and
exactly one visit occurs. -/
theorem c4_full_map_amended_witness :
    unixFillMap (pairOps UnixObject) [⟨1, strBytes "a"⟩]
      [⟨strBytes "x", some (UnixObject.mk 9 (strBytes "x"))⟩] =
      ([⟨strBytes "x", some (UnixObject.mk 9 (strBytes "x"))⟩],
        min 1 [UnixObject.mk 1 (strBytes "a")].length) :=
  c4_full_map_amended.1 (pairOps UnixObject) [⟨1, strBytes "a"⟩]
    [⟨strBytes "x", some (UnixObject.mk 9 (strBytes "x"))⟩] (by decide)

/-- C5, counterexample: on Windows the enumerator's snapshot exposes the
main executable under its module file name (never empty), yet
`is_main_program` holds of it because its handle equals the image base —
so "true iff the raw name is empty" fails there. -/
theorem c5_counterexample :
    (strBytes "app.exe", Module.mk 4096 100) ∈
      [(strBytes "app.exe", Module.mk 4096 100)] ∧
    winIsMainProgram ⟨fun _ => Except.ok none, 4096⟩ ⟨4096, 100⟩ = true ∧
    strBytes "app.exe" ≠ ([] : List Nat) :=
  ⟨List.mem_singleton.mpr rfl, rfl, by decide⟩

/-- C5 (amended): on Unix `is_main_program` holds iff the object's raw
name is the empty string; on Windows it holds iff the module handle
equals the address of the running image's `__ImageBase`, independent of
any name. -/
theorem c5_is_main_program_amended :
    (∀ o : UnixObject, unixIsMainProgram o = true ↔ o.dlpi_name = []) ∧
    (∀ (p : WinPlatform) (m : Module),
        winIsMainProgram p m = true ↔ m.handle = p.imageBase) := by
  constructor
  · intro o
    simp [unixIsMainProgram, List.isEmpty_iff]
  · intro p m
    simp [winIsMainProgram]

/-- C6: normalization equals the spec's description — the portion of the
name after its last path-separator occurrence (the whole name if none),
truncated just before the first dot of that remainder (the whole
remainder if none) — and takes the four stated values on the four stated
inputs. -/
theorem c6_normalize_correct :
    (∀ name : List Nat, toNiceName name = niceNameSpec name) ∧
    toNiceName (strBytes "/a/b/libfoo.so") = strBytes "libfoo" ∧
    toNiceName (strBytes "libfoo.so") = strBytes "libfoo" ∧
    toNiceName (strBytes "libfoo") = strBytes "libfoo" ∧
    toNiceName (strBytes "/a/b/libfoo") = strBytes "libfoo" :=
  ⟨toNiceName_eq_spec, by decide, by decide, by decide, by decide⟩

/-- C7: normalization is idempotent on every byte string. -/
theorem c7_normalize_idempotent (x : List Nat) :
    toNiceName (toNiceName x) = toNiceName x :=
  toNiceName_idem x

/-- C8: `is_rx` holds exactly of the flag word that is precisely
READABLE ∪ EXECUTABLE; in particular read+write+execute does not satisfy
it and exactly read+execute does. -/
theorem c8_is_rx_exact :
    (∀ f : SegmentFlags,
        f.is_rx = true ↔ f = SegmentFlags.READABLE.union SegmentFlags.EXECUTABLE) ∧
    ((SegmentFlags.READABLE.union SegmentFlags.WRITABLE).union
        SegmentFlags.EXECUTABLE).is_rx = false ∧
    (SegmentFlags.READABLE.union SegmentFlags.EXECUTABLE).is_rx = true := by
  refine ⟨?_, by decide, by decide⟩
  intro f
  cases f with
  | mk bits =>
    simp only [SegmentFlags.is_rx, SegmentFlags.is, decide_eq_true_eq]
    constructor
    · intro hb
      calc (⟨bits⟩ : SegmentFlags)
          = ⟨(SegmentFlags.READABLE.union SegmentFlags.EXECUTABLE).bits⟩ := by rw [hb]
        _ = SegmentFlags.READABLE.union SegmentFlags.EXECUTABLE := rfl
    · intro hb
      exact congrArg SegmentFlags.bits hb

/-- C9: a query matching no currently loaded object is reported through
the success channel as an absent result on both platforms — on Unix the
error type is uninhabited and an unmatched traversal leaves the result
empty, on Windows a lookup that finds no module yields the absent result,
never a failure. -/
theorem c9_absent_is_not_error :
    (∀ (R : Type) (objs : List UnixObject) (q : List Nat) (f : UnixObject → R),
        (∀ o ∈ objs, checkLibName o.dlpi_name q = false) →
        mapByNameOuter objs q f = Except.ok none) ∧
    (∀ (R : Type) (p : WinPlatform) (q : List Nat) (f : Module → R),
        p.find q = Except.ok none → winMapByName p q f = Except.ok none) := by
  constructor
  · intro R objs q f hnone
    have hidx := firstMatchIdx_eq_none hnone
    have h := mapByNameRun_characterization objs q f
    rw [hidx] at h
    simp only [mapByNameOuter, mapByName, Except.ok.injEq]
    exact h.2.2
  · intro R p q f hfind
    simp [winMapByName, hfind]

/-- C9 witness: a query matching nothing on a concrete Unix object list,
and a Windows platform whose lookup reports absence, both return the
absent result through the success channel. -/
theorem c9_absent_is_not_error_witness :
    mapByNameOuter [⟨0, strBytes "liba.so"⟩] (strBytes "zzz")
      (fun o => o.dlpi_addr) = Except.ok none ∧
    winMapByName ⟨fun _ => Except.ok none, 0⟩ (strBytes "zzz")
      (fun m => m.handle) = Except.ok none :=
  ⟨c9_absent_is_not_error.1 Nat [⟨0, strBytes "liba.so"⟩] (strBytes "zzz")
      (fun o => o.dlpi_addr) (by decide),
    c9_absent_is_not_error.2 Nat ⟨fun _ => Except.ok none, 0⟩ (strBytes "zzz")
      (fun m => m.handle) rfl⟩

/-- C10: in the Unix `map_by_name`, the `ManuallyDrop` closure is taken
and invoked at most once per call: exactly once when some visited object
matches — on the first such object, with the traversal broken right after
(the visit count is that object's index plus one) — and never when no
object matches (all objects are visited, the result stays empty). -/
theorem c10_closure_taken_once (R : Type) (objs : List UnixObject)
    (name : List Nat) (f : UnixObject → R) :
    (mapByNameRun objs name f).1.takes ≤ 1 ∧
    match firstMatchIdx name objs with
    | some i =>
        (mapByNameRun objs name f).1.takes = 1 ∧
        (mapByNameRun objs name f).2 = i + 1 ∧
        (mapByNameRun objs name f).1.result = (objs.get? i).map f
    | none =>
        (mapByNameRun objs name f).1.takes = 0 ∧
        (mapByNameRun objs name f).2 = objs.length := by
  have h := mapByNameRun_characterization objs name f
  cases hidx : firstMatchIdx name objs with
  | some i =>
    rw [hidx] at h
    exact ⟨le_of_eq h.1, h.1, h.2.1, h.2.2⟩
  | none =>
    rw [hidx] at h
    exact ⟨by rw [h.1]; exact Nat.zero_le 1, h.1, h.2.1⟩

end Loaded
